import Mathlib

/-!
NativeFilmlisteParser: the cross-thread streaming pipeline.

A shallow embedding of `src/FilmlisteParser/addon.cpp` (class
`NativeFilmlisteParser`): the batching worker `Execute`, the consumer
`WorkProgress`, the teardown `Destroy` / `AsyncClose`, and the marshalling of a
batch into the value handed to the progress callback.

The two threads are modelled as one state machine over explicit atomic steps.
A step of the worker is one pass through one of the numbered places of
`Execute`.  A wake of the consumer is two steps: the lock section of
`WorkProgress` (lines 245-248), and the rest of it (lines 250-303) with the
call of the progress callback; steps of the worker can fall between the two.
The only state the two threads share is `entryBatch` and `shouldTerminate`,
always accessed inside a `batchMutex` lock section, so every lock section is
one atomic step, and what a thread does outside a lock section touches its own
locals only.
-/

namespace FilmlisteParser

/-! ## Data model (`Entry`, `Video`) -/

/-- The `Video` value of `model.h`, with the three members `WorkProgress` reads.
`quality` is the number `static_cast<int>(video.quality)` yields. -/
structure Video where
  url : String
  quality : Int
  size : Int
deriving DecidableEq

/-- The `Entry` value of `model.h`, with the nine members `WorkProgress` reads. -/
structure Entry where
  id : String
  channel : String
  topic : String
  title : String
  timestamp : Int
  duration : Int
  description : String
  website : String
  videos : List Video
deriving DecidableEq

instance : Inhabited Entry := ⟨⟨"", "", "", "", 0, 0, "", "", []⟩⟩

/-! ## The value handed to the progress callback (addon.cpp 259-298) -/

/-- The part of a v8 value that `WorkProgress` builds: strings, Int32 numbers,
arrays, and objects as the list of their properties in insertion order. -/
inductive JsValue where
  | undefined
  | string (s : String)
  | int32 (n : Int)
  | array (items : List JsValue)
  | object (props : List (String × JsValue))

/-- The call `Nan::Set(obj, key, value)` on the property list of an object: an existing
property is overwritten in place, a new one is added at the end. -/
def NanSet (props : List (String × JsValue)) (key : String) (value : JsValue) :
    List (String × JsValue) :=
  match props with
  | [] => [(key, value)]
  | (k, w) :: rest =>
    if k = key then (k, value) :: rest else (k, w) :: NanSet rest key value

/-- Lines 280-283: the object built for one `Video`. -/
def marshalVideo (video : Video) : JsValue :=
  let videoObj : List (String × JsValue) := []
  let videoObj := NanSet videoObj "url" (.string video.url)
  let videoObj := NanSet videoObj "quality" (.int32 video.quality)
  let videoObj := NanSet videoObj "size" (.int32 video.size)
  .object videoObj

/-- Lines 275-286: `videoArray`, of length `videoCount`, slot `j` set to the
object of `entry.videos.at(j)`. -/
def marshalVideos (videos : List Video) : JsValue :=
  let videoCount := videos.length
  .array ((List.range videoCount).map fun j =>
    match videos.get? j with
    | some video => marshalVideo video
    | none => .undefined)

/-- Lines 262-288: the object built for one `Entry`. -/
def marshalEntry (entry : Entry) : JsValue :=
  let entryObj : List (String × JsValue) := []
  let entryObj := NanSet entryObj "id" (.string entry.id)
  let entryObj := NanSet entryObj "channel" (.string entry.channel)
  let entryObj := NanSet entryObj "topic" (.string entry.topic)
  let entryObj := NanSet entryObj "title" (.string entry.title)
  let entryObj := NanSet entryObj "timestamp" (.int32 entry.timestamp)
  let entryObj := NanSet entryObj "duration" (.int32 entry.duration)
  let entryObj := NanSet entryObj "description" (.string entry.description)
  let entryObj := NanSet entryObj "website" (.string entry.website)
  let entryObj := NanSet entryObj "videos" (marshalVideos entry.videos)
  .object entryObj

/-- Lines 256-291: `results`, of length `count`, slot `i` set to the object of
`localBatch[i]`. -/
def marshalBatch (localBatch : List Entry) : JsValue :=
  let count := localBatch.length
  .array ((List.range count).map fun i =>
    match localBatch.get? i with
    | some entry => marshalEntry entry
    | none => .undefined)

/-- Lines 293-298: the argument vector of `progressCallback->Call`. -/
def progressArgv (localBatch : List Entry) : List JsValue :=
  [marshalBatch localBatch]

/-- The property names of an object, in insertion order. -/
def JsValue.keys : JsValue → List String
  | .object props => props.map Prod.fst
  | _ => []

/-- The value of a property of an object. -/
def JsValue.prop (v : JsValue) (key : String) : Option JsValue :=
  match v with
  | .object props => (props.find? fun p => p.1 = key).map Prod.snd
  | _ => none

/-! ## The state machine of one run -/

/-- The places of `Execute` (the lambda of lines 318-361) between which the
worker makes one atomic step. -/
inductive Pc where
  /-- Line 324, the test of `while(!isLast)`. -/
  | outerLoop
  /-- Lines 327-337, the test of the inner `while` and one pass of its body. -/
  | innerLoop
  /-- Lines 340-346, the lock section that merges `localBatch`. -/
  | merge
  /-- Line 348, `uv_async_send(async)`. -/
  | send
  /-- Lines 353-355, the lock section that sets `shouldTerminate`. -/
  | setTerminate
  /-- Line 359 and after: `app.quit()`, `Execute` returns. -/
  | finished
deriving DecidableEq

/-- What the two threads do that is visible from outside the locals, in the
order it happens. -/
inductive Event where
  /-- The worker left the lock section of lines 340-346 having merged this
  local batch into `entryBatch`. -/
  | merged (localBatch : List Entry)
  /-- The worker called `uv_async_send` (line 348). -/
  | signalled
  /-- The worker wrote `shouldTerminate = true` (line 354). -/
  | terminateSet
  /-- The consumer left the lock section of lines 245-248 having swapped this
  batch out of `entryBatch`. -/
  | swapped (batch : List Entry)
  /-- The consumer called `progressCallback` with `progressArgv batch`
  (line 298). -/
  | progress (batch : List Entry)
  /-- `AsyncClose` called `endCallback` with `argc` arguments (line 191). -/
  | endCallback (argc : Nat)
deriving DecidableEq

/-- The state of one run of `NativeFilmlisteParser`. -/
structure State where
  /-- The member `batchSize`.  It is an `int` compared with a length; a value
  below 1 never lets the inner loop run, as 0 does here. -/
  batchSize : Nat
  /-- The handoff queue: the records the source emits that `dequeue` has not
  handed out yet, in emission order. -/
  queue : List Entry
  /-- Where the worker stands in `Execute`. -/
  pc : Pc
  /-- The local `isLast` of `Execute`. -/
  isLast : Bool
  /-- The local `localBatch` of `Execute`. -/
  localBatch : List Entry
  /-- The member `entryBatch`, guarded by `batchMutex`. -/
  entryBatch : List Entry
  /-- The member `shouldTerminate`, guarded by `batchMutex`. -/
  shouldTerminate : Bool
  /-- The pending bit of the `uv_async_t`: set by `uv_async_send`, cleared when
  the loop runs the callback; sends before the callback runs coalesce. -/
  asyncPending : Bool
  /-- Whether `uv_close` was called on the handle (`Destroy`). -/
  closing : Bool
  /-- Whether the close callback `AsyncClose` has run. -/
  closed : Bool
  /-- The events so far, oldest first. -/
  trace : List Event
  /-- Whether the loop thread is inside `WorkProgress`, past the lock section
  and before the call of the progress callback. -/
  inProgress : Bool
  /-- The local `localBatch` of `WorkProgress`; empty outside `WorkProgress`. -/
  consumerBatch : List Entry
  /-- The local `localShouldTerminate` of `WorkProgress`; false outside
  `WorkProgress`. -/
  localShouldTerminate : Bool
deriving DecidableEq

/-- What one poll of the handoff queue finds. -/
inductive Poll where
  /-- Nothing is in the queue at the moment. -/
  | empty
  /-- The head of the queue can be taken. -/
  | ready
  /-- The queue is empty and reports the end of the stream without handing
  out a record, as for a source that has finished without queuing any. -/
  | ended
deriving DecidableEq

/-- Modelled from the spec: `ConcurrentQueue<Entry>::dequeue(entry, isLast)`
(`concurrentqueue.h` is not among the sources), together with the source that
fills the queue from another thread.  The spec (4.2): it "attempts to remove the
head", returns `ok=false` "immediately if currently empty", and "`isLast=true`
is returned together with the final queued item's retrieval".  For a source that
queues nothing there is no such retrieval, and the spec (4.1) demands that the
run "must still surface an end-of-stream condition on the queue"; `Poll.ended`
is that case, `ok=false` with `isLast=true`, which only a queue that is empty
can answer.  The result is `(ok, entry, isLast, rest)`, `isLast` being the new
value of the caller's variable, whose old value is `isLast0`. -/
def dequeue (poll : Poll) (isLast0 : Bool) (queue : List Entry) :
    Bool × Entry × Bool × List Entry :=
  match poll, queue with
  | .ready, entry :: rest => (true, entry, rest.isEmpty, rest)
  | .ended, [] => (false, default, true, [])
  | _, q => (false, default, isLast0, q)

/-- One atomic step of the worker in `Execute`; `poll` is what the queue
answers if the step is a `dequeue`. -/
def ExecuteStep (poll : Poll) (s : State) : State :=
  match s.pc with
  | .outerLoop =>
    -- 324: while(!isLast) ... 325: QList<Entry> localBatch;
    if !s.isLast then { s with localBatch := [], pc := .innerLoop }
    else { s with pc := .setTerminate }
  | .innerLoop =>
    -- 327: while (!isLast && localBatch.length() < this->batchSize)
    if !s.isLast && decide (s.localBatch.length < s.batchSize) then
      match dequeue poll s.isLast s.queue with
      | (true, entry, last, rest) =>
        -- 336: localBatch.append(entry);
        { s with queue := rest, isLast := last, localBatch := s.localBatch ++ [entry] }
      | (false, _, last, rest) =>
        -- 331-334: Sleeper::msleep(1); continue;
        { s with queue := rest, isLast := last }
    else { s with pc := .merge }
  | .merge =>
    -- 340-346, under batchMutex
    if s.entryBatch.isEmpty then
      -- 342: entryBatch.swap(localBatch);
      { s with entryBatch := s.localBatch, localBatch := s.entryBatch, pc := .send,
               trace := s.trace ++ [.merged s.localBatch] }
    else
      -- 344: entryBatch.append(localBatch);
      { s with entryBatch := s.entryBatch ++ s.localBatch, pc := .send,
               trace := s.trace ++ [.merged s.localBatch] }
  | .send =>
    -- 348: uv_async_send(async);
    { s with asyncPending := true, pc := .outerLoop, trace := s.trace ++ [.signalled] }
  | .setTerminate =>
    -- 353-355, under batchMutex: shouldTerminate = true;
    { s with shouldTerminate := true, pc := .finished, trace := s.trace ++ [.terminateSet] }
  | .finished => s

/-- Lines 233-235, `Destroy`: `uv_close(async, AsyncClose)`. -/
def Destroy (s : State) : State :=
  { s with closing := true }

/-- Lines 244-248, the lock section of `WorkProgress`: `entryBatch` is swapped
with the empty local `localBatch`, and `shouldTerminate` is read into
`localShouldTerminate`. -/
def WorkProgressLock (s : State) : State :=
  { s with consumerBatch := s.entryBatch, entryBatch := [],
           localShouldTerminate := s.shouldTerminate, inProgress := true,
           trace := s.trace ++ [.swapped s.entryBatch] }

/-- Lines 250-303, the rest of `WorkProgress`: the local batch is marshalled
and handed to `progressCallback` (line 298), and `Destroy` is called if the
flag read in the lock section was true; the locals then go out of scope. -/
def WorkProgressCall (s : State) : State :=
  -- 256-298: progressCallback->Call(1, argv)
  let t := { s with trace := s.trace ++ [.progress s.consumerBatch], inProgress := false,
                    consumerBatch := [], localShouldTerminate := false }
  -- 300-303
  if s.localShouldTerminate then Destroy t else t

/-- Lines 187-195, `AsyncClose`: `endCallback->Call(0, NULL)`, then the handle
and the worker object are deleted. -/
def AsyncClose (s : State) : State :=
  { s with closed := true, trace := s.trace ++ [.endCallback 0] }

/-- What the scheduler picks next: a step of the worker thread; on the loop
thread the start of the async callback up to the end of its lock section, the
rest of the async callback, or a run of the close callback. -/
inductive Action where
  | worker (poll : Poll)
  | wake
  | deliver
  | close
deriving DecidableEq

/-- One step of the run.  The loop runs the async callback (`AsyncProgress`,
lines 172-175) only while the handle has a send pending and is not closing,
and clears the pending bit as it does; the loop thread runs one callback at a
time; it runs the close callback once after `uv_close`.  An action that is not
enabled leaves the state as it is.  The clearing of the pending bit and the
lock section of `WorkProgress` are one step: a send of the worker that falls
between the two leaves the same state as that send right after the lock
section.  `AsyncExecuteComplete` (lines 178-184),
which the loop runs after `Execute` has returned, has no step here: the two
calls in its body are commented out and it changes nothing. -/
def step (a : Action) (s : State) : State :=
  match a with
  | .worker poll => ExecuteStep poll s
  | .wake =>
    if s.asyncPending && !s.closing && !s.inProgress then
      WorkProgressLock { s with asyncPending := false }
    else s
  | .deliver =>
    if s.inProgress then WorkProgressCall s else s
  | .close =>
    if s.closing && !s.closed && !s.inProgress then AsyncClose s else s

/-- The state after a schedule, a finite sequence of actions. -/
def run (sched : List Action) (s : State) : State :=
  sched.foldl (fun s a => step a s) s

/-- Lines 200-231 and 323: the state when the worker enters its loop, for the
records the source emits. -/
def init (batchSize : Nat) (emitted : List Entry) : State :=
  { batchSize := batchSize, queue := emitted, pc := .outerLoop, isLast := false,
    localBatch := [], entryBatch := [], shouldTerminate := false,
    asyncPending := false, closing := false, closed := false, trace := [],
    inProgress := false, consumerBatch := [], localShouldTerminate := false }

/-! ## Reading the trace -/

/-- The batches handed to the progress callback, in delivery order. -/
def deliveries (tr : List Event) : List (List Entry) :=
  tr.filterMap fun e => match e with
    | .progress batch => some batch
    | _ => none

/-- The local batches the worker merged, in merge order. -/
def merges (tr : List Event) : List (List Entry) :=
  tr.filterMap fun e => match e with
    | .merged batch => some batch
    | _ => none

/-- The calls of the end callback. -/
def endCalls (tr : List Event) : List Event :=
  tr.filter fun e => match e with
    | .endCallback _ => true
    | _ => false

/-- The writes of `shouldTerminate`. -/
def terminateWrites (tr : List Event) : Nat :=
  tr.countP fun e => match e with
    | .terminateSet => true
    | _ => false

/-- Reading the trace from its start: the number of merges since the last
lock section of the consumer, and, for each lock section of the consumer so
far, the number of merges since the one before it with the batch swapped
out. -/
def wakeFold (tr : List Event) : Nat × List (Nat × List Entry) :=
  tr.foldl (fun acc e => match e with
    | .merged _ => (acc.1 + 1, acc.2)
    | .swapped batch => (0, acc.2 ++ [(acc.1, batch)])
    | _ => acc) (0, [])

/-- The number of merges since the last lock section of the consumer. -/
def mergesSinceWake (tr : List Event) : Nat :=
  (wakeFold tr).1

/-- For each lock section of the consumer, the number of merges since the
lock section before it, and the batch swapped out. -/
def wakeLog (tr : List Event) : List (Nat × List Entry) :=
  (wakeFold tr).2

/-- The batch the consumer has swapped out and not handed to the progress
callback yet, if it is inside `WorkProgress`. -/
def inHand (s : State) : List (List Entry) :=
  if s.inProgress then [s.consumerBatch] else []

/-- The local batch while the worker holds records in it that it has not
merged yet. -/
def inFlight (s : State) : List Entry :=
  match s.pc with
  | .innerLoop => s.localBatch
  | .merge => s.localBatch
  | _ => []

/-- The number of worker steps in a schedule at which the queue is ready. -/
def readySteps (sched : List Action) : Nat :=
  sched.count (.worker .ready)

/-- An upper bound on the number of worker steps with a ready queue that the
worker still needs to finish. -/
def workLeft (s : State) : Nat :=
  match s.pc with
  | .outerLoop => 5 * s.queue.length + 2
  | .innerLoop =>
    if s.localBatch = [] then 5 * s.queue.length + 1 else 5 * s.queue.length + 5
  | .merge => 5 * s.queue.length + 4
  | .send => 5 * s.queue.length + 3
  | .setTerminate => 1
  | .finished => 0

/-! ## The invariants of a run -/

/-- What holds in every state of a run with batch size `b` of at least 1 on a
source that queues at least one record. -/
structure InvLoop (b : Nat) (s : State) : Prop where
  size : s.batchSize = b
  pos : 1 ≤ b
  lastIff : s.pc ≠ .setTerminate → s.pc ≠ .finished → (s.isLast = true ↔ s.queue = [])
  fresh : s.pc = .innerLoop → s.localBatch = [] → s.isLast = false
  localLe : s.pc = .innerLoop → s.localBatch.length ≤ b
  mergeShape : s.pc = .merge →
    1 ≤ s.localBatch.length ∧ s.localBatch.length ≤ b ∧
      (s.isLast = false → s.localBatch.length = b)
  mergedBounds : ∀ L ∈ merges s.trace, 1 ≤ L.length ∧ L.length ≤ b
  fullSoFar : s.isLast = false ∨ s.pc = .innerLoop ∨ s.pc = .merge →
    ∀ L ∈ merges s.trace, L.length = b
  fullButLast : ∀ L ∈ (merges s.trace).dropLast, L.length = b

/-- Control: what the worker's place says about its locals and the flags. -/
structure InvCtl (b : Nat) (s : State) : Prop where
  size : s.batchSize = b
  lastQueue : s.isLast = true → s.queue = []
  pcLast : s.pc = .setTerminate ∨ s.pc = .finished → s.isLast = true
  flagPc : s.shouldTerminate = true ↔ s.pc = .finished
  closingFlag : s.closing = true → s.shouldTerminate = true
  closedClosing : s.closed = true → s.closing = true
  closingBuf : s.closing = true → s.entryBatch = []
  closingIdle : s.closing = true → s.inProgress = false
  seenFlag : s.inProgress = true → s.localShouldTerminate = true →
    s.shouldTerminate = true ∧ s.entryBatch = []

/-- Data: every emitted record is in exactly one place. -/
structure InvData (emitted : List Entry) (s : State) : Prop where
  delivered : (deliveries s.trace).flatten ++ (inHand s).flatten ++ s.entryBatch ++
    inFlight s ++ s.queue = emitted
  mergedAll : (merges s.trace).flatten ++ inFlight s ++ s.queue = emitted

/-- Counts: the writes of the flag and the calls of the end callback. -/
structure InvCount (s : State) : Prop where
  writes : terminateWrites s.trace = if s.shouldTerminate then 1 else 0
  ends : endCalls s.trace = if s.closed then [Event.endCallback 0] else []

/-- Bounds: the lengths of the batches. -/
structure InvBound (b : Nat) (s : State) : Prop where
  size : s.batchSize = b
  localLe : s.pc = .innerLoop ∨ s.pc = .merge → s.localBatch.length ≤ b
  mergedLe : ∀ L ∈ merges s.trace, L.length ≤ b
  bufLe : s.entryBatch.length ≤ b * mergesSinceWake s.trace
  wakeLe : ∀ p ∈ wakeLog s.trace, p.2.length ≤ b * p.1
  swapsDelivered : (wakeLog s.trace).map Prod.snd = deliveries s.trace ++ inHand s

/-! ## Sample records and schedules -/

/-- Three records to run the machine on. -/
def rec1 : Entry :=
  ⟨"1", "ARD", "Tagesschau", "Tagesschau 20 Uhr", 1500000000, 900, "", "http://a/1",
    [⟨"http://a/1.mp4", 1, -1⟩, ⟨"http://a/1hd.mp4", 2, 1024⟩]⟩

def rec2 : Entry :=
  ⟨"2", "ZDF", "heute", "heute 19 Uhr", 1500000100, 1200, "Nachrichten", "http://z/2", []⟩

def rec3 : Entry :=
  ⟨"3", "ARTE", "Doku", "Die Nordsee", 1500000200, 2700, "", "", [⟨"http://r/3.mp4", 0, 77⟩]⟩

/-- A worker step that finds the queue ready. -/
def w : Action := .worker .ready

/-- A run to the end on three records with batch size 2: the worker merges
the first batch, the consumer wakes and delivers it, the worker merges the
second batch and sets the flag, the consumer wakes again and delivers, and the
handle is closed. -/
def schedFull : List Action :=
  [w, w, w, w, w, w, .wake, .deliver, w, w, w, w, w, w, w, .wake, .deliver, .close]

/-- Two records, batch size 1: the worker merges the first batch and signals,
merges the second batch before the consumer is scheduled, and the consumer
wakes and delivers. -/
def schedTwoMerges : List Action :=
  [w, w, w, w, w, w, w, w, w, .wake, .deliver]

/-- Two records, batch size 1: as `schedTwoMerges`, then the worker sends the
signal of its second merge. -/
def schedEmptyWake : List Action :=
  schedTwoMerges ++ [w]

/-- One record, batch size 100: the worker merges the only batch and signals,
the consumer wakes and delivers before the worker sets the flag, and the
worker then sets the flag and returns. -/
def schedLostWake : List Action :=
  [w, w, w, w, w, .wake, .deliver, w, w]

/-- A source that queues nothing, as for an input that cannot be opened, with
the end of the stream reported by the queue: the worker merges an empty batch,
signals and sets the flag, the consumer wakes and delivers, and the handle is
closed. -/
def schedNoRecords : List Action :=
  [.worker .ended, .worker .ended, .worker .ended, .worker .ended, .worker .ended,
   .worker .ended, .worker .ended, .wake, .deliver, .close]

/-- Two records, batch size 1: the consumer swaps the first batch out, the
worker merges the second batch and signals before the consumer calls the
progress callback, and the consumer then wakes again and delivers the second
batch. -/
def schedMergeInsideWake : List Action :=
  [w, w, w, w, w, .wake, w, w, w, w, w, .deliver, .wake, .deliver]

/-! ## Lemmas on reading the trace -/

theorem deliveries_snoc (tr : List Event) (e : Event) :
    deliveries (tr ++ [e]) = deliveries tr ++ deliveries [e] := by
  simp [deliveries, List.filterMap_append]

theorem merges_snoc (tr : List Event) (e : Event) :
    merges (tr ++ [e]) = merges tr ++ merges [e] := by
  simp [merges, List.filterMap_append]

theorem endCalls_snoc (tr : List Event) (e : Event) :
    endCalls (tr ++ [e]) = endCalls tr ++ endCalls [e] := by
  simp [endCalls, List.filter_append]

theorem terminateWrites_snoc (tr : List Event) (e : Event) :
    terminateWrites (tr ++ [e]) = terminateWrites tr + terminateWrites [e] := by
  simp [terminateWrites, List.countP_append]

theorem deliveries_single (e : Event) :
    deliveries [e] = match e with
      | .progress batch => [batch]
      | _ => [] := by
  cases e <;> rfl

theorem merges_single (e : Event) :
    merges [e] = match e with
      | .merged batch => [batch]
      | _ => [] := by
  cases e <;> rfl

theorem wakeFold_snoc (tr : List Event) (e : Event) :
    wakeFold (tr ++ [e]) =
      match e with
      | .merged _ => ((wakeFold tr).1 + 1, (wakeFold tr).2)
      | .swapped batch => (0, (wakeFold tr).2 ++ [((wakeFold tr).1, batch)])
      | _ => wakeFold tr := by
  cases e <;> simp [wakeFold, List.foldl_append]

/-! ## The effect of single steps -/

theorem ExecuteStep_inner_exit (poll : Poll) (s : State) (hpc : s.pc = .innerLoop)
    (hc : (!s.isLast && decide (s.localBatch.length < s.batchSize)) = false) :
    ExecuteStep poll s = { s with pc := .merge } := by
  simp [ExecuteStep, hpc, hc]

theorem ExecuteStep_merge (poll : Poll) (s : State) (hpc : s.pc = .merge) :
    ExecuteStep poll s =
      { s with entryBatch := s.entryBatch ++ s.localBatch,
               localBatch := if s.entryBatch.isEmpty then [] else s.localBatch,
               pc := .send, trace := s.trace ++ [.merged s.localBatch] } := by
  by_cases he : s.entryBatch.isEmpty = true
  · have he2 : s.entryBatch = [] := by simpa using he
    simp [ExecuteStep, hpc, he2]
  · simp [ExecuteStep, hpc, he]

theorem invCtl_worker {b : Nat} {s : State} (h : InvCtl b s)
    (poll : Poll) : InvCtl b (ExecuteStep poll s) := by
  obtain ⟨bs, q, pc, il, lb, eb, st, ap, cg, cd, tr, ip, cb, lt⟩ := s
  obtain ⟨h1, h2, h3, h4, h5, h6, h7, h8, h9⟩ := h
  simp only at h1 h2 h3 h4 h5 h6 h7 h8 h9
  subst h1
  cases pc
  · cases il <;> constructor <;> simp_all [ExecuteStep]
  · by_cases hc : (!il && decide (lb.length < bs)) = true
    · simp only [Bool.and_eq_true, Bool.not_eq_eq_eq_not, Bool.not_true,
        decide_eq_true_eq] at hc
      obtain ⟨hil, hlt⟩ := hc
      subst hil
      cases poll <;> cases q <;>
        constructor <;> simp_all [ExecuteStep, dequeue]
    · rw [ExecuteStep_inner_exit poll _ rfl (by simpa using hc)]
      constructor <;> simp_all
  · by_cases he : eb.isEmpty = true
    · constructor <;> simp_all [ExecuteStep]
    · constructor <;> simp_all [ExecuteStep]
  · constructor <;> simp_all [ExecuteStep]
  · constructor <;> simp_all [ExecuteStep]
  · constructor <;> simp_all [ExecuteStep]

theorem invCtl_step {b : Nat} {s : State} (h : InvCtl b s) (a : Action) :
    InvCtl b (step a s) := by
  cases a with
  | worker poll => exact invCtl_worker h poll
  | wake =>
    obtain ⟨bs, q, pc, il, lb, eb, st, ap, cg, cd, tr, ip, cb, lt⟩ := s
    obtain ⟨h1, h2, h3, h4, h5, h6, h7, h8, h9⟩ := h
    cases ap <;> cases cg <;> cases ip <;>
      constructor <;> simp_all [FilmlisteParser.step, WorkProgressLock]
  | deliver =>
    obtain ⟨bs, q, pc, il, lb, eb, st, ap, cg, cd, tr, ip, cb, lt⟩ := s
    obtain ⟨h1, h2, h3, h4, h5, h6, h7, h8, h9⟩ := h
    cases ip <;> cases lt <;>
      constructor <;> simp_all [FilmlisteParser.step, WorkProgressCall, Destroy]
  | close =>
    obtain ⟨bs, q, pc, il, lb, eb, st, ap, cg, cd, tr, ip, cb, lt⟩ := s
    obtain ⟨h1, h2, h3, h4, h5, h6, h7, h8, h9⟩ := h
    cases cg <;> cases cd <;> cases ip <;>
      constructor <;> simp_all [FilmlisteParser.step, AsyncClose]

theorem invData_step {emitted : List Entry} {s : State} (h : InvData emitted s)
    (a : Action) : InvData emitted (step a s) := by
  obtain ⟨bs, q, pc, il, lb, eb, st, ap, cg, cd, tr, ip, cb, lt⟩ := s
  obtain ⟨h1, h2⟩ := h
  cases a with
  | worker poll =>
    cases pc
    · cases il <;> constructor <;> simp_all [FilmlisteParser.step, ExecuteStep, inFlight, inHand]
    · by_cases hc : (!il && decide (lb.length < bs)) = true
      · simp only [Bool.and_eq_true, Bool.not_eq_eq_eq_not, Bool.not_true,
          decide_eq_true_eq] at hc
        obtain ⟨hil, hlt⟩ := hc
        subst hil
        cases poll <;> cases q <;>
          constructor <;> simp_all [FilmlisteParser.step, ExecuteStep, dequeue, inFlight, inHand]
      · simp only [FilmlisteParser.step]
        rw [ExecuteStep_inner_exit poll _ rfl (by simpa using hc)]
        constructor <;> simp_all [inFlight, inHand]
    · by_cases he : eb.isEmpty = true
      · have he2 : eb = [] := by simpa using he
        subst he2
        constructor <;>
          simp_all [FilmlisteParser.step, ExecuteStep, inFlight, inHand, deliveries_snoc, merges_snoc] <;>
          simp_all [deliveries, merges]
      · constructor <;>
          simp_all [FilmlisteParser.step, ExecuteStep, inFlight, inHand, deliveries_snoc, merges_snoc] <;>
          simp_all [deliveries, merges]
    · constructor <;>
        simp_all [FilmlisteParser.step, ExecuteStep, inFlight, inHand, deliveries_snoc, merges_snoc] <;>
        simp_all [deliveries, merges]
    · constructor <;>
        simp_all [FilmlisteParser.step, ExecuteStep, inFlight, inHand, deliveries_snoc, merges_snoc] <;>
        simp_all [deliveries, merges]
    · constructor <;> simp_all [FilmlisteParser.step, ExecuteStep, inFlight, inHand]
  | wake =>
    cases ap <;> cases cg <;> cases ip <;>
      constructor <;>
      simp_all [FilmlisteParser.step, WorkProgressLock, inFlight, inHand, deliveries_snoc,
        merges_snoc] <;>
      simp_all [deliveries, merges]
  | deliver =>
    cases ip <;> cases lt <;>
      constructor <;>
      simp_all [FilmlisteParser.step, WorkProgressCall, Destroy, inFlight, inHand,
        deliveries_snoc, merges_snoc] <;>
      simp_all [deliveries, merges]
  | close =>
    cases cg <;> cases cd <;> cases ip <;>
      constructor <;>
      simp_all [FilmlisteParser.step, AsyncClose, inFlight, inHand, deliveries_snoc,
        merges_snoc] <;>
      simp_all [deliveries, merges]

theorem invCount_step {b : Nat} {s : State} (hc : InvCtl b s) (h : InvCount s)
    (a : Action) : InvCount (step a s) := by
  obtain ⟨bs, q, pc, il, lb, eb, st, ap, cg, cd, tr, ip, cb, lt⟩ := s
  obtain ⟨h1, h2⟩ := h
  have hf := hc.flagPc
  simp only at hf h1 h2
  cases a with
  | worker poll =>
    cases pc
    · cases il <;> constructor <;> simp_all [FilmlisteParser.step, ExecuteStep]
    · by_cases hc : (!il && decide (lb.length < bs)) = true
      · simp only [Bool.and_eq_true, Bool.not_eq_eq_eq_not, Bool.not_true,
          decide_eq_true_eq] at hc
        obtain ⟨hil, hlt⟩ := hc
        subst hil
        cases poll <;> cases q <;>
          constructor <;> simp_all [FilmlisteParser.step, ExecuteStep, dequeue]
      · simp only [FilmlisteParser.step]
        rw [ExecuteStep_inner_exit poll _ rfl (by simpa using hc)]
        constructor <;> simp_all
    · by_cases he : eb.isEmpty = true <;> constructor <;>
        simp_all [FilmlisteParser.step, ExecuteStep, endCalls_snoc, terminateWrites_snoc] <;>
        simp_all [endCalls, terminateWrites]
    · constructor <;>
        simp_all [FilmlisteParser.step, ExecuteStep, endCalls_snoc, terminateWrites_snoc] <;>
        simp_all [endCalls, terminateWrites]
    · constructor <;>
        simp_all [FilmlisteParser.step, ExecuteStep, endCalls_snoc, terminateWrites_snoc] <;>
        simp_all [endCalls, terminateWrites]
    · constructor <;> simp_all [FilmlisteParser.step, ExecuteStep]
  | wake =>
    cases ap <;> cases cg <;> cases ip <;>
      constructor <;>
      simp_all [FilmlisteParser.step, WorkProgressLock, endCalls_snoc,
        terminateWrites_snoc] <;>
      simp_all [endCalls, terminateWrites]
  | deliver =>
    cases ip <;> cases lt <;>
      constructor <;>
      simp_all [FilmlisteParser.step, WorkProgressCall, Destroy, endCalls_snoc,
        terminateWrites_snoc] <;>
      simp_all [endCalls, terminateWrites]
  | close =>
    cases cg <;> cases cd <;> cases ip <;>
      constructor <;>
      simp_all [FilmlisteParser.step, AsyncClose, endCalls_snoc, terminateWrites_snoc] <;>
      simp_all [endCalls, terminateWrites]


theorem step_wake_enabled (s : State) (hp : s.asyncPending = true) (hc : s.closing = false)
    (hi : s.inProgress = false) :
    step .wake s =
      { s with asyncPending := false, consumerBatch := s.entryBatch, entryBatch := [],
               localShouldTerminate := s.shouldTerminate, inProgress := true,
               trace := s.trace ++ [.swapped s.entryBatch] } := by
  simp [FilmlisteParser.step, hp, hc, hi, WorkProgressLock]

theorem step_wake_disabled (s : State)
    (h : (s.asyncPending && !s.closing && !s.inProgress) = false) : step .wake s = s := by
  simp [FilmlisteParser.step, h]

theorem step_deliver_enabled (s : State) (hi : s.inProgress = true) :
    step .deliver s =
      { s with trace := s.trace ++ [.progress s.consumerBatch], inProgress := false,
               consumerBatch := [], localShouldTerminate := false,
               closing := (s.localShouldTerminate || s.closing) } := by
  cases hl : s.localShouldTerminate <;>
    simp [FilmlisteParser.step, hi, hl, WorkProgressCall, Destroy]

theorem step_deliver_disabled (s : State) (hi : s.inProgress = false) :
    step .deliver s = s := by
  simp [FilmlisteParser.step, hi]

theorem step_close_enabled (s : State) (hc : s.closing = true) (hd : s.closed = false)
    (hi : s.inProgress = false) :
    step .close s = { s with closed := true, trace := s.trace ++ [.endCallback 0] } := by
  simp [FilmlisteParser.step, hc, hd, hi, AsyncClose]

theorem step_close_disabled (s : State)
    (h : (s.closing && !s.closed && !s.inProgress) = false) : step .close s = s := by
  simp [FilmlisteParser.step, h]

theorem invBound_step {b : Nat} {s : State} (h : InvBound b s)
    (a : Action) : InvBound b (step a s) := by
  have hinv := h
  obtain ⟨bs, q, pc, il, lb, eb, st, ap, cg, cd, tr, ip, cb, lt⟩ := s
  obtain ⟨h0, h1, h2, h3, h4, h5⟩ := h
  simp only at h0 h1 h2 h3 h4 h5
  subst h0
  cases a with
  | worker poll =>
    cases pc
    · cases il <;> constructor <;> simp_all [FilmlisteParser.step, ExecuteStep, inHand]
    · by_cases hc : (!il && decide (lb.length < bs)) = true
      · simp only [Bool.and_eq_true, Bool.not_eq_eq_eq_not, Bool.not_true,
          decide_eq_true_eq] at hc
        obtain ⟨hil, hlt⟩ := hc
        subst hil
        cases poll <;> cases q <;>
          constructor <;> simp_all [FilmlisteParser.step, ExecuteStep, dequeue, inHand] <;>
          omega
      · simp only [FilmlisteParser.step]
        rw [ExecuteStep_inner_exit poll _ rfl (by simpa using hc)]
        constructor <;> simp_all [inHand]
    · have hl : lb.length ≤ bs := h1 (Or.inr rfl)
      simp only [FilmlisteParser.step]
      rw [ExecuteStep_merge poll _ rfl]
      refine ⟨rfl, by simp, ?_, ?_, ?_, ?_⟩
      · intro L hL
        simp only [merges_snoc, merges_single, List.mem_append, List.mem_singleton] at hL
        rcases hL with hL | hL
        · exact h2 L hL
        · subst hL
          exact hl
      · simp only [mergesSinceWake, wakeFold_snoc, List.length_append]
        simp only [mergesSinceWake] at h3
        rw [Nat.mul_add]
        omega
      · simpa [wakeLog, wakeFold_snoc] using h4
      · simpa [wakeLog, wakeFold_snoc, deliveries_snoc, deliveries_single, inHand] using h5
    · simp only [FilmlisteParser.step, ExecuteStep]
      refine ⟨rfl, by simp, ?_, ?_, ?_, ?_⟩
      · simpa [merges_snoc, merges_single] using h2
      · simpa [mergesSinceWake, wakeFold_snoc] using h3
      · simpa [wakeLog, wakeFold_snoc] using h4
      · simpa [wakeLog, wakeFold_snoc, deliveries_snoc, deliveries_single, inHand] using h5
    · simp only [FilmlisteParser.step, ExecuteStep]
      refine ⟨rfl, by simp, ?_, ?_, ?_, ?_⟩
      · simpa [merges_snoc, merges_single] using h2
      · simpa [mergesSinceWake, wakeFold_snoc] using h3
      · simpa [wakeLog, wakeFold_snoc] using h4
      · simpa [wakeLog, wakeFold_snoc, deliveries_snoc, deliveries_single, inHand] using h5
    · exact hinv
  | wake =>
    by_cases hw : (ap && !cg && !ip) = true
    · simp only [Bool.and_eq_true, Bool.not_eq_eq_eq_not, Bool.not_true] at hw
      obtain ⟨⟨hap, hcg⟩, hip⟩ := hw
      subst hap hcg hip
      rw [step_wake_enabled _ rfl rfl rfl]
      refine ⟨rfl, h1, ?_, by simp, ?_, ?_⟩
      · simpa [merges_snoc, merges_single] using h2
      · intro p hp
        simp only [wakeLog, wakeFold_snoc, List.mem_append, List.mem_singleton] at hp
        rcases hp with hp | hp
        · exact h4 p hp
        · subst hp
          exact h3
      · simp only [wakeLog, wakeFold_snoc, List.map_append, List.map_cons, List.map_nil,
          deliveries_snoc, deliveries_single, inHand, if_true, List.append_nil]
        simp only [wakeLog, inHand, Bool.false_eq_true, if_false, List.append_nil] at h5
        rw [h5]
    · rw [step_wake_disabled _ (by simpa using hw)]
      exact hinv
  | deliver =>
    cases ip
    · rw [step_deliver_disabled _ rfl]
      exact hinv
    · rw [step_deliver_enabled _ rfl]
      refine ⟨rfl, h1, ?_, ?_, ?_, ?_⟩
      · simpa [merges_snoc, merges_single] using h2
      · simpa [mergesSinceWake, wakeFold_snoc] using h3
      · simpa [wakeLog, wakeFold_snoc] using h4
      · simpa [wakeLog, wakeFold_snoc, deliveries_snoc, deliveries_single, inHand] using h5
  | close =>
    by_cases hw : (cg && !cd && !ip) = true
    · simp only [Bool.and_eq_true, Bool.not_eq_eq_eq_not, Bool.not_true] at hw
      obtain ⟨⟨hcg, hcd⟩, hip⟩ := hw
      subst hcg hcd hip
      rw [step_close_enabled _ rfl rfl rfl]
      refine ⟨rfl, h1, ?_, ?_, ?_, ?_⟩
      · simpa [merges_snoc, merges_single] using h2
      · simpa [mergesSinceWake, wakeFold_snoc] using h3
      · simpa [wakeLog, wakeFold_snoc] using h4
      · simpa [wakeLog, wakeFold_snoc, deliveries_snoc, deliveries_single, inHand] using h5
    · rw [step_close_disabled _ (by simpa using hw)]
      exact hinv

/-! ## From steps to runs -/

theorem run_nil (s : State) : run [] s = s := rfl

theorem run_cons (a : Action) (sched : List Action) (s : State) :
    run (a :: sched) s = run sched (step a s) := rfl

theorem run_append (xs ys : List Action) (s : State) :
    run (xs ++ ys) s = run ys (run xs s) := by
  simp [run, List.foldl_append]

theorem invCtl_init (b : Nat) (emitted : List Entry) : InvCtl b (init b emitted) := by
  constructor <;> simp [FilmlisteParser.init]

theorem invData_init (b : Nat) (emitted : List Entry) : InvData emitted (init b emitted) := by
  constructor <;> simp [FilmlisteParser.init, inFlight, inHand, deliveries, merges]

theorem invCount_init (b : Nat) (emitted : List Entry) : InvCount (init b emitted) := by
  constructor <;> simp [FilmlisteParser.init, endCalls, terminateWrites]

theorem invBound_init (b : Nat) (emitted : List Entry) : InvBound b (init b emitted) := by
  constructor <;>
    simp [FilmlisteParser.init, merges, mergesSinceWake, wakeLog, wakeFold, deliveries, inHand]

theorem invCtl_run {b : Nat} (sched : List Action) :
    ∀ {s : State}, InvCtl b s → InvCtl b (run sched s) := by
  induction sched with
  | nil => intro s h; exact h
  | cons a rest ih => intro s h; exact ih (invCtl_step h a)

theorem invData_run {emitted : List Entry} (sched : List Action) :
    ∀ {s : State}, InvData emitted s → InvData emitted (run sched s) := by
  induction sched with
  | nil => intro s h; exact h
  | cons a rest ih => intro s h; exact ih (invData_step h a)

theorem invCount_run {b : Nat} (sched : List Action) :
    ∀ {s : State}, InvCtl b s → InvCount s → InvCount (run sched s) := by
  induction sched with
  | nil => intro s _ h; exact h
  | cons a rest ih => intro s hc h; exact ih (invCtl_step hc a) (invCount_step hc h a)

theorem invBound_run {b : Nat} (sched : List Action) :
    ∀ {s : State}, InvBound b s → InvBound b (run sched s) := by
  induction sched with
  | nil => intro s h; exact h
  | cons a rest ih => intro s h; exact ih (invBound_step h a)

/-- When the worker has finished, nothing is left in its locals or in the
queue. -/
theorem invCtl_finished_drained {b : Nat} {s : State} (h : InvCtl b s)
    (hpc : s.pc = .finished) : inFlight s = [] ∧ s.queue = [] := by
  refine ⟨by simp [inFlight, hpc], ?_⟩
  exact h.lastQueue (h.pcLast (Or.inr hpc))

/-- Once the flag is set, no step clears it. -/
theorem step_keeps_flag (a : Action) (s : State) (h : s.shouldTerminate = true) :
    (step a s).shouldTerminate = true := by
  obtain ⟨bs, q, pc, il, lb, eb, st, ap, cg, cd, tr, ip, cb, lt⟩ := s
  simp only at h
  subst h
  cases a with
  | worker poll =>
    cases pc
    · cases il <;> simp [FilmlisteParser.step, ExecuteStep]
    · by_cases hc : (!il && decide (lb.length < bs)) = true
      · simp only [Bool.and_eq_true, Bool.not_eq_eq_eq_not, Bool.not_true,
          decide_eq_true_eq] at hc
        obtain ⟨hil, hlt⟩ := hc
        subst hil
        cases poll <;> cases q <;> simp [FilmlisteParser.step, ExecuteStep, dequeue, hlt]
      · simp only [FilmlisteParser.step]
        rw [ExecuteStep_inner_exit poll _ rfl (by simpa using hc)]
    · simp only [FilmlisteParser.step]
      rw [ExecuteStep_merge poll _ rfl]
    · simp [FilmlisteParser.step, ExecuteStep]
    · simp [FilmlisteParser.step, ExecuteStep]
    · simp [FilmlisteParser.step, ExecuteStep]
  | wake => cases ap <;> cases cg <;> cases ip <;> simp [FilmlisteParser.step, WorkProgressLock]
  | deliver => cases ip <;> cases lt <;> simp [FilmlisteParser.step, WorkProgressCall, Destroy]
  | close => cases cg <;> cases cd <;> cases ip <;> simp [FilmlisteParser.step, AsyncClose]

/-! ## The batching loop on a source that queues at least one record -/

theorem invLoop_init (b : Nat) (emitted : List Entry) (hb : 1 ≤ b) (hn : emitted ≠ []) :
    InvLoop b (init b emitted) := by
  constructor <;> simp [FilmlisteParser.init, merges, hb, hn]

theorem ExecuteStep_inner_take (s : State) (hpc : s.pc = .innerLoop)
    (hil : s.isLast = false) (hlt : s.localBatch.length < s.batchSize)
    (entry : Entry) (rest : List Entry) (hq : s.queue = entry :: rest) :
    ExecuteStep .ready s =
      { s with queue := rest, isLast := rest.isEmpty,
               localBatch := s.localBatch ++ [entry] } := by
  simp [ExecuteStep, hpc, hil, hlt, hq, dequeue]

theorem ExecuteStep_inner_wait (poll : Poll) (s : State) (hpc : s.pc = .innerLoop)
    (hil : s.isLast = false) (hlt : s.localBatch.length < s.batchSize)
    (h : poll = .empty ∨ (poll = .ready ∧ s.queue = []) ∨ (poll = .ended ∧ s.queue ≠ [])) :
    ExecuteStep poll s = s := by
  obtain ⟨bs, q, pc, il, lb, eb, st, ap, cg, cd, tr, ip, cb, lt⟩ := s
  simp only at hpc hil hlt h
  subst hpc hil
  rcases h with h | ⟨h, hq⟩ | ⟨h, hq⟩
  · subst h
    cases q <;> simp [ExecuteStep, hlt, dequeue]
  · subst h hq
    simp [ExecuteStep, hlt, dequeue]
  · subst h
    cases q with
    | nil => exact absurd rfl hq
    | cons e rest => simp [ExecuteStep, hlt, dequeue]

theorem invLoop_step {b : Nat} {s : State} (h : InvLoop b s) (a : Action) :
    InvLoop b (step a s) := by
  have hinv := h
  obtain ⟨bs, q, pc, il, lb, eb, st, ap, cg, cd, tr, ip, cb, lt⟩ := s
  obtain ⟨h0, hb, h1, h2, h3, h4, h5, h6, h7⟩ := h
  simp only at h0 h1 h2 h3 h4 h5 h6 h7
  subst h0
  cases a with
  | worker poll =>
    cases pc
    · cases il
      · simp only [FilmlisteParser.step, ExecuteStep, Bool.not_false, if_true]
        refine ⟨rfl, hb, by simpa using h1, by simp, by simp, by simp, h5, ?_, h7⟩
        intro _
        exact h6 (Or.inl rfl)
      · simp only [FilmlisteParser.step, ExecuteStep, Bool.not_true, Bool.false_eq_true,
          if_false]
        refine ⟨rfl, hb, by simp, by simp, by simp, by simp, h5, by simp, h7⟩
    · by_cases hc : (!il && decide (lb.length < bs)) = true
      · simp only [Bool.and_eq_true, Bool.not_eq_eq_eq_not, Bool.not_true,
          decide_eq_true_eq] at hc
        obtain ⟨hil, hlt⟩ := hc
        subst hil
        have hq : q ≠ [] := by simpa using h1
        simp only [FilmlisteParser.step]
        cases poll with
        | empty =>
          rw [ExecuteStep_inner_wait .empty _ rfl rfl hlt (Or.inl rfl)]
          exact hinv
        | ended =>
          rw [ExecuteStep_inner_wait .ended _ rfl rfl hlt (Or.inr (Or.inr ⟨rfl, hq⟩))]
          exact hinv
        | ready =>
          cases q with
          | nil => exact absurd rfl hq
          | cons e rest =>
            rw [ExecuteStep_inner_take _ rfl rfl hlt e rest rfl]
            refine ⟨rfl, hb, by simp, by simp, ?_, by simp, h5, ?_, h7⟩
            · intro _
              simp only [List.length_append, List.length_singleton]
              omega
            · intro _
              exact h6 (Or.inl rfl)
      · simp only [FilmlisteParser.step]
        have hs : ExecuteStep poll ⟨bs, q, .innerLoop, il, lb, eb, st, ap, cg, cd, tr, ip, cb, lt⟩ =
            ⟨bs, q, .merge, il, lb, eb, st, ap, cg, cd, tr, ip, cb, lt⟩ :=
          ExecuteStep_inner_exit poll _ rfl (by simpa using hc)
        rw [hs]
        have hc2 : il = false → bs ≤ lb.length := by simpa using hc
        have hl : lb.length ≤ bs := h3 rfl
        refine ⟨rfl, hb, by simpa using h1, by simp, by simp, ?_, h5, ?_, h7⟩
        · intro _
          dsimp only
          refine ⟨?_, hl, fun hil => by have := hc2 hil; omega⟩
          cases il
          · have := hc2 rfl
            omega
          · by_cases hlb : lb = []
            · have := h2 rfl hlb
              simp at this
            · exact List.length_pos.mpr hlb
        · intro _
          exact h6 (Or.inr (Or.inl rfl))
    · simp only [FilmlisteParser.step]
      rw [ExecuteStep_merge poll _ rfl]
      obtain ⟨hm1, hm2, hm3⟩ := h4 rfl
      have hfull := h6 (Or.inr (Or.inr rfl))
      refine ⟨rfl, hb, by simpa using h1, by simp, by simp, by simp, ?_, ?_, ?_⟩
      · intro L hL
        simp only [merges_snoc, merges_single, List.mem_append, List.mem_singleton] at hL
        rcases hL with hL | hL
        · exact h5 L hL
        · subst hL
          exact ⟨hm1, hm2⟩
      · intro hil L hL
        simp only [merges_snoc, merges_single, List.mem_append, List.mem_singleton] at hL
        have hil2 : il = false := by simpa using hil
        rcases hL with hL | hL
        · exact hfull L hL
        · subst hL
          exact hm3 hil2
      · intro L hL
        simp only [merges_snoc, merges_single, List.dropLast_concat] at hL
        exact hfull L hL
    · simp only [FilmlisteParser.step, ExecuteStep]
      refine ⟨rfl, hb, by simpa using h1, by simp, by simp, by simp, ?_, ?_, ?_⟩
      · simpa [merges_snoc, merges_single] using h5
      · simpa [merges_snoc, merges_single] using h6
      · simpa [merges_snoc, merges_single] using h7
    · simp only [FilmlisteParser.step, ExecuteStep]
      refine ⟨rfl, hb, by simp, by simp, by simp, by simp, ?_, ?_, ?_⟩
      · simpa [merges_snoc, merges_single] using h5
      · simpa [merges_snoc, merges_single] using h6
      · simpa [merges_snoc, merges_single] using h7
    · exact ⟨rfl, hb, h1, h2, h3, h4, h5, h6, h7⟩
  | wake =>
    by_cases hw : (ap && !cg && !ip) = true
    · simp only [Bool.and_eq_true, Bool.not_eq_eq_eq_not, Bool.not_true] at hw
      obtain ⟨⟨hap, hcg⟩, hip⟩ := hw
      subst hap hcg hip
      rw [step_wake_enabled _ rfl rfl rfl]
      refine ⟨rfl, hb, h1, h2, h3, h4, ?_, ?_, ?_⟩
      · simpa [merges_snoc, merges_single] using h5
      · simpa [merges_snoc, merges_single] using h6
      · simpa [merges_snoc, merges_single] using h7
    · rw [step_wake_disabled _ (by simpa using hw)]
      exact hinv
  | deliver =>
    cases ip
    · rw [step_deliver_disabled _ rfl]
      exact hinv
    · rw [step_deliver_enabled _ rfl]
      refine ⟨rfl, hb, h1, h2, h3, h4, ?_, ?_, ?_⟩
      · simpa [merges_snoc, merges_single] using h5
      · simpa [merges_snoc, merges_single] using h6
      · simpa [merges_snoc, merges_single] using h7
  | close =>
    by_cases hw : (cg && !cd && !ip) = true
    · simp only [Bool.and_eq_true, Bool.not_eq_eq_eq_not, Bool.not_true] at hw
      obtain ⟨⟨hcg, hcd⟩, hip⟩ := hw
      subst hcg hcd hip
      rw [step_close_enabled _ rfl rfl rfl]
      refine ⟨rfl, hb, h1, h2, h3, h4, ?_, ?_, ?_⟩
      · simpa [merges_snoc, merges_single] using h5
      · simpa [merges_snoc, merges_single] using h6
      · simpa [merges_snoc, merges_single] using h7
    · rw [step_close_disabled _ (by simpa using hw)]
      exact hinv

theorem invLoop_run {b : Nat} (sched : List Action) :
    ∀ {s : State}, InvLoop b s → InvLoop b (run sched s) := by
  induction sched with
  | nil => intro s h; exact h
  | cons a rest ih => intro s h; exact ih (invLoop_step h a)

/-- No step adds to the work left, and a worker step with a ready queue takes
one off it. -/
theorem workLeft_step {b : Nat} {s : State} (h : InvLoop b s) (a : Action) :
    workLeft (step a s) ≤ workLeft s ∧
      (a = .worker .ready → workLeft (step a s) ≤ workLeft s - 1) := by
  obtain ⟨bs, q, pc, il, lb, eb, st, ap, cg, cd, tr, ip, cb, lt⟩ := s
  obtain ⟨h0, hb, h1, h2, h3, h4, h5, h6, h7⟩ := h
  simp only at h0 h1 h2 h3 h4 h5 h6 h7
  subst h0
  cases a with
  | worker poll =>
    cases pc
    · cases il
      · simp [FilmlisteParser.step, ExecuteStep, workLeft]
      · have hq : q = [] := by simpa using h1
        subst hq
        simp [FilmlisteParser.step, ExecuteStep, workLeft]
    · by_cases hc : (!il && decide (lb.length < bs)) = true
      · simp only [Bool.and_eq_true, Bool.not_eq_eq_eq_not, Bool.not_true,
          decide_eq_true_eq] at hc
        obtain ⟨hil, hlt⟩ := hc
        subst hil
        have hq : q ≠ [] := by simpa using h1
        simp only [FilmlisteParser.step]
        cases poll with
        | empty =>
          rw [ExecuteStep_inner_wait .empty _ rfl rfl hlt (Or.inl rfl)]
          simp
        | ended =>
          rw [ExecuteStep_inner_wait .ended _ rfl rfl hlt (Or.inr (Or.inr ⟨rfl, hq⟩))]
          simp
        | ready =>
          cases q with
          | nil => exact absurd rfl hq
          | cons e rest =>
            rw [ExecuteStep_inner_take _ rfl rfl hlt e rest rfl]
            by_cases hlb : lb = []
            · simp [workLeft, hlb]
              omega
            · simp [workLeft, hlb]
              omega
      · simp only [FilmlisteParser.step]
        have hs : ExecuteStep poll ⟨bs, q, .innerLoop, il, lb, eb, st, ap, cg, cd, tr, ip, cb, lt⟩ =
            ⟨bs, q, .merge, il, lb, eb, st, ap, cg, cd, tr, ip, cb, lt⟩ :=
          ExecuteStep_inner_exit poll _ rfl (by simpa using hc)
        rw [hs]
        have hc2 : il = false → bs ≤ lb.length := by simpa using hc
        have hlb : lb ≠ [] := by
          intro hlb
          have hf := h2 rfl hlb
          have := hc2 hf
          subst hlb
          simp at this
          omega
        simp [workLeft, hlb]
    · simp only [FilmlisteParser.step]
      rw [ExecuteStep_merge poll _ rfl]
      simp [workLeft]
    · simp [FilmlisteParser.step, ExecuteStep, workLeft]
    · simp [FilmlisteParser.step, ExecuteStep, workLeft]
    · simp [FilmlisteParser.step, ExecuteStep, workLeft]
  | wake =>
    refine ⟨?_, by simp⟩
    cases ap <;> cases cg <;> cases ip <;>
      simp [FilmlisteParser.step, WorkProgressLock, workLeft]
  | deliver =>
    refine ⟨?_, by simp⟩
    cases ip <;> cases lt <;>
      simp [FilmlisteParser.step, WorkProgressCall, Destroy, workLeft]
  | close =>
    refine ⟨?_, by simp⟩
    cases cg <;> cases cd <;> cases ip <;> simp [FilmlisteParser.step, AsyncClose, workLeft]

theorem workLeft_run {b : Nat} (sched : List Action) :
    ∀ {s : State}, InvLoop b s → workLeft (run sched s) ≤ workLeft s - readySteps sched := by
  induction sched with
  | nil => intro s _; simp [run_nil, readySteps]
  | cons a rest ih =>
    intro s h
    have h1 := ih (invLoop_step h a)
    obtain ⟨h2, h3⟩ := workLeft_step h a
    rw [run_cons]
    by_cases ha : a = .worker .ready
    · have h4 := h3 ha
      subst ha
      have : readySteps (Action.worker Poll.ready :: rest) = readySteps rest + 1 := by
        simp [readySteps]
      omega
    · have : readySteps (a :: rest) = readySteps rest := by
        simp [readySteps, List.count_cons, ha]
      omega

theorem workLeft_eq_zero {s : State} (h : workLeft s = 0) : s.pc = .finished := by
  obtain ⟨bs, q, pc, il, lb, eb, st, ap, cg, cd, tr, ip, cb, lt⟩ := s
  cases pc <;> simp [workLeft] at h ⊢
  split at h <;> omega

/-- Batches that are all full but the last, which has between 1 and `b`
records, number the ceiling of the record count over `b`. -/
theorem chunk_count (b : Nat) (hb : 1 ≤ b) (M : List (List Entry))
    (hfull : ∀ L ∈ M.dropLast, L.length = b)
    (hbound : ∀ L ∈ M, 1 ≤ L.length ∧ L.length ≤ b) :
    M.length = (M.flatten.length + b - 1) / b := by
  induction M using List.reverseRecOn with
  | nil =>
    have h : (0 + b - 1) / b = 0 := Nat.div_eq_of_lt (by omega)
    simpa using h.symm
  | append_singleton D last _ =>
    have hsum : ∀ D : List (List Entry), (∀ L ∈ D, L.length = b) →
        D.flatten.length = D.length * b := by
      intro D
      induction D with
      | nil => simp
      | cons L rest ih =>
        intro hD
        have h1 := hD L (by simp)
        have h2 := ih (fun L hL => hD L (by simp [hL]))
        simp only [List.flatten_cons, List.length_append, List.length_cons, h1, h2]
        ring
    have hD : D.flatten.length = D.length * b :=
      hsum D (by simpa [List.dropLast_concat] using hfull)
    obtain ⟨hl1, hl2⟩ := hbound last (by simp)
    simp only [List.flatten_append, List.flatten_cons, List.flatten_nil, List.append_nil,
      List.length_append, List.length_singleton, hD]
    symm
    apply Nat.div_eq_of_lt_le
    · have : (D.length + 1) * b = D.length * b + b := by ring
      omega
    · have : (D.length + 1 + 1) * b = D.length * b + b + b := by ring
      omega

/-! ## The claims -/

/-- A step of the worker leaves the locals of `WorkProgress` and the state of
the handle as they are. -/
theorem ExecuteStep_consumer_frame (poll : Poll) (s : State) :
    (ExecuteStep poll s).inProgress = s.inProgress ∧
    (ExecuteStep poll s).consumerBatch = s.consumerBatch ∧
    (ExecuteStep poll s).localShouldTerminate = s.localShouldTerminate ∧
    (ExecuteStep poll s).closing = s.closing := by
  obtain ⟨bs, q, pc, il, lb, eb, st, ap, cg, cd, tr, ip, cb, lt⟩ := s
  cases pc
  · cases il <;> simp [ExecuteStep]
  · by_cases hc : (!il && decide (lb.length < bs)) = true
    · simp only [Bool.and_eq_true, Bool.not_eq_eq_eq_not, Bool.not_true,
        decide_eq_true_eq] at hc
      obtain ⟨hil, hlt⟩ := hc
      subst hil
      cases poll <;> cases q <;> simp [ExecuteStep, dequeue, hlt]
    · rw [ExecuteStep_inner_exit poll _ rfl (by simpa using hc)]
      simp
  · rw [ExecuteStep_merge poll _ rfl]
    simp
  · simp [ExecuteStep]
  · simp [ExecuteStep]
  · simp [ExecuteStep]

theorem run_workers_frame (polls : List Poll) :
    ∀ s : State,
      (run (polls.map Action.worker) s).inProgress = s.inProgress ∧
      (run (polls.map Action.worker) s).consumerBatch = s.consumerBatch ∧
      (run (polls.map Action.worker) s).localShouldTerminate = s.localShouldTerminate ∧
      (run (polls.map Action.worker) s).closing = s.closing := by
  induction polls with
  | nil => intro s; simp [run_nil]
  | cons p rest ih =>
    intro s
    obtain ⟨h1, h2, h3, h4⟩ := ih (step (.worker p) s)
    obtain ⟨g1, g2, g3, g4⟩ := ExecuteStep_consumer_frame p s
    simp only [List.map_cons, run_cons]
    exact ⟨h1.trans g1, h2.trans g2, h3.trans g3, h4.trans g4⟩

/-- The rest of `WorkProgress` after its lock section hands the local batch to
the progress callback and closes the handle if the flag read was true. -/
theorem deliver_hands_over (t : State) (h : t.inProgress = true) :
    (step .deliver t).trace = t.trace ++ [.progress t.consumerBatch] ∧
    (step .deliver t).closing = (t.localShouldTerminate || t.closing) := by
  rw [step_deliver_enabled t h]
  exact ⟨rfl, rfl⟩

/-- Once the handle is closing, the delivered batches, concatenated, are the
emitted sequence. -/
theorem closing_delivered_all {b : Nat} {emitted : List Entry} {s : State}
    (hc : InvCtl b s) (hd : InvData emitted s) (h : s.closing = true) :
    (deliveries s.trace).flatten = emitted := by
  have hpc := hc.flagPc.mp (hc.closingFlag h)
  obtain ⟨h1, h2⟩ := invCtl_finished_drained hc hpc
  have h3 := hd.delivered
  have h4 : inHand s = [] := by simp [inHand, hc.closingIdle h]
  rw [hc.closingBuf h, h1, h2, h4] at h3
  simpa using h3

/-- On a source that queues at least one record and with batch size at least
1, the worker has finished after any schedule with `5 * N + 2` worker steps
that found the queue ready. -/
theorem enough_ready_steps_finish (emitted : List Entry) (b : Nat) (sched : List Action)
    (hn : emitted ≠ []) (hb : 1 ≤ b) (hsteps : 5 * emitted.length + 2 ≤ readySteps sched) :
    (run sched (init b emitted)).pc = .finished := by
  have hw := workLeft_run sched (invLoop_init b emitted hb hn)
  have hw0 : workLeft (init b emitted) = 5 * emitted.length + 2 := by
    simp [workLeft, FilmlisteParser.init]
  exact workLeft_eq_zero (by omega)

/-- The end callback is called at most once, with no argument, and when it has
been called every emitted record was delivered before, the flag is set and the
worker has finished. -/
theorem end_callback_after_all_deliveries (emitted : List Entry) (b : Nat)
    (sched : List Action) :
    (endCalls (run sched (init b emitted)).trace).length ≤ 1 ∧
    (endCalls (run sched (init b emitted)).trace ≠ [] →
      endCalls (run sched (init b emitted)).trace = [.endCallback 0] ∧
      (deliveries (run sched (init b emitted)).trace).flatten = emitted ∧
      (run sched (init b emitted)).shouldTerminate = true ∧
      (run sched (init b emitted)).pc = .finished) := by
  have hc : InvCtl b (run sched (init b emitted)) := invCtl_run sched (invCtl_init b emitted)
  have hd : InvData emitted (run sched (init b emitted)) :=
    invData_run sched (invData_init b emitted)
  have hn : InvCount (run sched (init b emitted)) :=
    invCount_run sched (invCtl_init b emitted) (invCount_init b emitted)
  rw [hn.ends]
  cases hcl : (run sched (init b emitted)).closed
  · simp
  · have hcg := hc.closedClosing hcl
    have hf := hc.closingFlag hcg
    simp only [if_true, List.length_singleton, le_refl, ne_eq, List.cons_ne_nil,
      not_false_eq_true, true_and, forall_const]
    exact ⟨closing_delivered_all hc hd hcg, hf, hc.flagPc.mp hf⟩

/-- C1: in every run (any records, any batch size, any interleaving), once the
consumer has made the wake that read the termination flag as true, the batches
handed to the progress callback, concatenated in delivery order, are exactly
the emitted sequence. -/
theorem C1_deliveries_are_the_emitted_sequence (emitted : List Entry) (b : Nat)
    (sched : List Action) (h : (run sched (init b emitted)).closing = true) :
    (deliveries (run sched (init b emitted)).trace).flatten = emitted := by
  have hc : InvCtl b (run sched (init b emitted)) := invCtl_run sched (invCtl_init b emitted)
  have hd : InvData emitted (run sched (init b emitted)) :=
    invData_run sched (invData_init b emitted)
  exact closing_delivered_all hc hd h

theorem C1_witness :
    (run schedFull (init 2 [rec1, rec2, rec3])).closing = true ∧
    (deliveries (run schedFull (init 2 [rec1, rec2, rec3])).trace).flatten =
      [rec1, rec2, rec3] :=
  ⟨by decide, C1_deliveries_are_the_emitted_sequence [rec1, rec2, rec3] 2 schedFull (by decide)⟩

/-- C10: the termination flag is false at construction; in every state of every
run it is true exactly when the worker has left its loop and finished, and then
`isLast` is true, the queue is drained and every emitted record is in a merged
batch; the trace holds one write of the flag when it is true and none when it
is false; no step of the worker or the consumer takes a true flag back to
false; and on a source that queues at least one record, with batch size at
least 1, after any schedule with `5 * N + 2` worker steps that found the queue
ready the flag is true and has been written exactly once. -/
theorem C10_flag_set_once_after_last_merge (emitted : List Entry) (b : Nat)
    (sched : List Action) :
    (init b emitted).shouldTerminate = false ∧
    ((run sched (init b emitted)).shouldTerminate = true ↔
      (run sched (init b emitted)).pc = .finished) ∧
    ((run sched (init b emitted)).shouldTerminate = true →
      (run sched (init b emitted)).isLast = true ∧
      (run sched (init b emitted)).queue = [] ∧
      (merges (run sched (init b emitted)).trace).flatten = emitted) ∧
    terminateWrites (run sched (init b emitted)).trace =
      (if (run sched (init b emitted)).shouldTerminate then 1 else 0) ∧
    (∀ a : Action, (run sched (init b emitted)).shouldTerminate = true →
      (step a (run sched (init b emitted))).shouldTerminate = true) ∧
    (emitted ≠ [] → 1 ≤ b → 5 * emitted.length + 2 ≤ readySteps sched →
      (run sched (init b emitted)).shouldTerminate = true ∧
      terminateWrites (run sched (init b emitted)).trace = 1) := by
  have hc : InvCtl b (run sched (init b emitted)) := invCtl_run sched (invCtl_init b emitted)
  have hd : InvData emitted (run sched (init b emitted)) :=
    invData_run sched (invData_init b emitted)
  have hn : InvCount (run sched (init b emitted)) :=
    invCount_run sched (invCtl_init b emitted) (invCount_init b emitted)
  refine ⟨rfl, hc.flagPc, ?_, hn.writes, fun a h => step_keeps_flag a _ h, ?_⟩
  · intro h
    have hpc := hc.flagPc.mp h
    obtain ⟨h1, h2⟩ := invCtl_finished_drained hc hpc
    refine ⟨hc.pcLast (Or.inr hpc), h2, ?_⟩
    have h3 := hd.mergedAll
    rw [h1, h2] at h3
    simpa using h3
  · intro hne hb hsteps
    have hf := hc.flagPc.mpr (enough_ready_steps_finish emitted b sched hne hb hsteps)
    refine ⟨hf, ?_⟩
    rw [hn.writes, hf]
    rfl

theorem C10_witness :
    [rec1, rec2, rec3] ≠ [] ∧ 1 ≤ 2 ∧
    5 * [rec1, rec2, rec3].length + 2 ≤ readySteps (List.replicate 17 w) ∧
    (run (List.replicate 17 w) (init 2 [rec1, rec2, rec3])).shouldTerminate = true ∧
    terminateWrites (run (List.replicate 17 w) (init 2 [rec1, rec2, rec3])).trace = 1 :=
  ⟨by decide, by decide, by decide,
    (C10_flag_set_once_after_last_merge [rec1, rec2, rec3] 2 (List.replicate 17 w)).2.2.2.2.2
      (by decide) (by decide) (by decide)⟩

/-- C4, as stated, fails: with batch size 1 and two merges before the wake the
progress callback receives one batch of two records. -/
theorem C4_counterexample :
    deliveries (run schedTwoMerges (init 1 [rec1, rec2])).trace = [[rec1, rec2]] ∧
    ¬ ([rec1, rec2].length ≤ 1) := by
  decide

/-- C4 amended: every local batch the worker merges has at most `batchSize`
records; the batches handed to the progress callback are, in order, the
batches the lock sections of `WorkProgress` swapped out of the shared buffer
(the last of them still in the hand of the consumer while it is between its
lock section and its call); and every batch swapped out has at most
`batchSize` times the number of merges made since the previous lock section of
`WorkProgress` (`wakeLog` lists the swapped-out batches, each with that
number). -/
theorem C4_delivered_batch_bound (emitted : List Entry) (b : Nat) (sched : List Action) :
    (∀ L ∈ merges (run sched (init b emitted)).trace, L.length ≤ b) ∧
    (wakeLog (run sched (init b emitted)).trace).map Prod.snd =
      deliveries (run sched (init b emitted)).trace ++ inHand (run sched (init b emitted)) ∧
    (∀ p ∈ wakeLog (run sched (init b emitted)).trace, p.2.length ≤ b * p.1) := by
  have hb : InvBound b (run sched (init b emitted)) :=
    invBound_run sched (invBound_init b emitted)
  exact ⟨hb.mergedLe, hb.swapsDelivered, hb.wakeLe⟩

theorem C4_witness :
    wakeLog (run schedMergeInsideWake (init 1 [rec1, rec2])).trace =
      [(1, [rec1]), (1, [rec2])] ∧
    deliveries (run schedMergeInsideWake (init 1 [rec1, rec2])).trace = [[rec1], [rec2]] ∧
    (∀ p ∈ wakeLog (run schedMergeInsideWake (init 1 [rec1, rec2])).trace,
      p.2.length ≤ 1 * p.1) :=
  ⟨by decide, by decide,
    (C4_delivered_batch_bound [rec1, rec2] 1 schedMergeInsideWake).2.2⟩

/-- C5, as stated, fails: the consumer wakes on the second signal with an empty
buffer and the flag false, and the progress callback is called, with an empty
batch. -/
theorem C5_counterexample :
    (run schedEmptyWake (init 1 [rec1, rec2])).asyncPending = true ∧
    (run schedEmptyWake (init 1 [rec1, rec2])).entryBatch = [] ∧
    (run schedEmptyWake (init 1 [rec1, rec2])).shouldTerminate = false ∧
    deliveries (run [.wake, .deliver] (run schedEmptyWake (init 1 [rec1, rec2]))).trace =
      deliveries (run schedEmptyWake (init 1 [rec1, rec2])).trace ++ [[]] := by
  decide

/-- C5 amended: a wake whose lock section swaps an empty batch out of the
shared buffer and reads the flag as false still calls the progress callback,
once, with the empty batch, whatever steps the worker makes between the lock
section and the call; the lock section leaves the buffer empty and the flag
false, and the wake starts no teardown. -/
theorem C5_empty_wake_calls_progress (s : State) (polls : List Poll)
    (hp : s.asyncPending = true) (hc : s.closing = false) (hi : s.inProgress = false)
    (he : s.entryBatch = []) (hf : s.shouldTerminate = false) :
    (step .wake s).trace = s.trace ++ [.swapped []] ∧
    (step .wake s).entryBatch = [] ∧
    (step .wake s).shouldTerminate = false ∧
    (step .deliver (run (polls.map Action.worker) (step .wake s))).trace =
      (run (polls.map Action.worker) (step .wake s)).trace ++ [.progress []] ∧
    (step .deliver (run (polls.map Action.worker) (step .wake s))).closing = false := by
  have hw := step_wake_enabled s hp hc hi
  obtain ⟨g1, g2, g3, g4⟩ := run_workers_frame polls (step .wake s)
  have e1 : (step .wake s).inProgress = true := by rw [hw]
  have e2 : (step .wake s).consumerBatch = [] := by rw [hw]; exact he
  have e3 : (step .wake s).localShouldTerminate = false := by rw [hw]; exact hf
  have e4 : (step .wake s).closing = false := by rw [hw]; exact hc
  obtain ⟨d1, d2⟩ := deliver_hands_over _ (g1.trans e1)
  refine ⟨by rw [hw, he], by rw [hw], by rw [hw]; exact hf, ?_, ?_⟩
  · rw [d1, g2, e2]
  · rw [d2, g3, e3, g4, e4]
    rfl

theorem C5_witness :
    (step .wake (run schedEmptyWake (init 1 [rec1, rec2]))).trace =
      (run schedEmptyWake (init 1 [rec1, rec2])).trace ++ [.swapped []] ∧
    (step .wake (run schedEmptyWake (init 1 [rec1, rec2]))).entryBatch = [] ∧
    (step .wake (run schedEmptyWake (init 1 [rec1, rec2]))).shouldTerminate = false ∧
    (step .deliver (run ([Poll.ready, Poll.empty].map Action.worker)
        (step .wake (run schedEmptyWake (init 1 [rec1, rec2]))))).trace =
      (run ([Poll.ready, Poll.empty].map Action.worker)
        (step .wake (run schedEmptyWake (init 1 [rec1, rec2])))).trace ++ [.progress []] ∧
    (step .deliver (run ([Poll.ready, Poll.empty].map Action.worker)
        (step .wake (run schedEmptyWake (init 1 [rec1, rec2]))))).closing = false :=
  C5_empty_wake_calls_progress (run schedEmptyWake (init 1 [rec1, rec2]))
    [Poll.ready, Poll.empty] (by decide) (by decide) (by decide) (by decide) (by decide)

theorem stuck_run (s : State) (h : ∀ a : Action, step a s = s) (sched : List Action) :
    run sched s = s := by
  induction sched with
  | nil => rfl
  | cons a rest ih => rw [run_cons, h a, ih]

theorem schedLostWake_stuck (a : Action) :
    step a (run schedLostWake (init 100 [rec1])) = run schedLostWake (init 100 [rec1]) := by
  cases a with
  | worker poll => cases poll <;> decide
  | wake => decide
  | deliver => decide
  | close => decide

/-- C2 fails on the code: on one record with batch size 100, when the consumer
wakes between the worker's last signal and its write of the flag, the record
is delivered and the worker finishes with the flag set, but no action is
enabled any more and, however the run is continued, the end callback is never
called. -/
theorem C2_end_callback_never_called (more : List Action) :
    deliveries (run (schedLostWake ++ more) (init 100 [rec1])).trace = [[rec1]] ∧
    (run (schedLostWake ++ more) (init 100 [rec1])).pc = .finished ∧
    (run (schedLostWake ++ more) (init 100 [rec1])).shouldTerminate = true ∧
    endCalls (run (schedLostWake ++ more) (init 100 [rec1])).trace = [] := by
  rw [run_append, stuck_run _ schedLostWake_stuck]
  decide

/-- C3 fails on the code: the step that writes the flag sends no signal (it
leaves the pending bit as it was and ends the worker), and on one record with
batch size 100 the write of the flag is the last event of the run, after the
only signal and the only wake: the handle has no send pending, so no wake
occurs after the flag became true. -/
theorem C3_no_signal_after_flag :
    (∀ (poll : Poll) (s : State), s.pc = .setTerminate →
      (ExecuteStep poll s).asyncPending = s.asyncPending ∧
      (ExecuteStep poll s).pc = .finished ∧
      (ExecuteStep poll s).trace = s.trace ++ [.terminateSet]) ∧
    (run schedLostWake (init 100 [rec1])).trace =
      [.merged [rec1], .signalled, .swapped [rec1], .progress [rec1], .terminateSet] ∧
    (run schedLostWake (init 100 [rec1])).shouldTerminate = true ∧
    (run schedLostWake (init 100 [rec1])).asyncPending = false ∧
    step .wake (run schedLostWake (init 100 [rec1])) = run schedLostWake (init 100 [rec1]) := by
  refine ⟨?_, by decide, by decide, by decide, by decide⟩
  intro poll s h
  simp [ExecuteStep, h]

/-- C6, as stated, fails: the completion call of the run on a source that
queued nothing is the call with no argument, the same as the completion call
of the run that delivered three records; and the progress callback was called
once, with an empty batch. -/
theorem C6_counterexample :
    endCalls (run schedNoRecords (init 100 [])).trace = [.endCallback 0] ∧
    endCalls (run schedFull (init 2 [rec1, rec2, rec3])).trace = [.endCallback 0] ∧
    deliveries (run schedNoRecords (init 100 [])).trace = [[]] := by
  decide

/-- C6 amended: for a source that queues no record, in every interleaving
every batch handed to the progress callback is empty, the end callback is
called at most once, and every call of it has no argument; and the same call
with no argument is the only completion call of any run on any records: it
carries no error indicator. -/
theorem C6_completion_call_has_no_argument (b : Nat) (sched : List Action) :
    (∀ B ∈ deliveries (run sched (init b [])).trace, B = []) ∧
    (endCalls (run sched (init b [])).trace).length ≤ 1 ∧
    (∀ e ∈ endCalls (run sched (init b [])).trace, e = .endCallback 0) ∧
    (∀ (emitted : List Entry) (b1 : Nat) (sched1 : List Action),
      ∀ e ∈ endCalls (run sched1 (init b1 emitted)).trace, e = .endCallback 0) := by
  have hd : InvData [] (run sched (init b [])) := invData_run sched (invData_init b [])
  have hn : ∀ (emitted : List Entry) (b1 : Nat) (sched1 : List Action),
      InvCount (run sched1 (init b1 emitted)) := fun emitted b1 sched1 =>
    invCount_run sched1 (invCtl_init b1 emitted) (invCount_init b1 emitted)
  refine ⟨?_, ?_, ?_, ?_⟩
  · intro B hB
    have h := hd.delivered
    simp only [List.append_eq_nil, List.flatten_eq_nil_iff] at h
    exact h.1.1.1.1 B hB
  · rw [(hn [] b sched).ends]
    split <;> simp
  · intro e he
    rw [(hn [] b sched).ends] at he
    split at he <;> simp at he
    exact he
  · intro emitted b1 sched1 e he
    rw [(hn emitted b1 sched1).ends] at he
    split at he <;> simp at he
    exact he

theorem marshalVideos_eq (videos : List Video) :
    marshalVideos videos = .array (videos.map marshalVideo) := by
  show JsValue.array _ = JsValue.array _
  congr 1
  apply List.ext_getElem
  · simp
  · intro i h1 h2
    simp at h1
    simp [List.getElem?_eq_getElem h1]

theorem marshalBatch_eq (localBatch : List Entry) :
    marshalBatch localBatch = .array (localBatch.map marshalEntry) := by
  show JsValue.array _ = JsValue.array _
  congr 1
  apply List.ext_getElem
  · simp
  · intro i h1 h2
    simp at h1
    simp [List.getElem?_eq_getElem h1]

/-- C7, as stated, fails: the object built for a record has no field `media`;
its ninth field is named `videos`. -/
theorem C7_counterexample :
    (marshalEntry rec1).prop "media" = none ∧
    (marshalEntry rec1).keys = ["id", "channel", "topic", "title", "timestamp", "duration",
      "description", "website", "videos"] := by
  constructor
  · rfl
  · decide

/-- C7 amended: the value handed to the progress callback is one array with
one element per record of the batch, in batch order; each element has exactly
the fields id, channel, topic, title, timestamp, duration, description,
website and videos, holding the record's members of these names, where videos
is the array of the record's videos in their original order, each with exactly
the fields url, quality and size. -/
theorem C7_marshalled_batch (localBatch : List Entry) :
    progressArgv localBatch = [.array (localBatch.map marshalEntry)] ∧
    (∀ e : Entry,
      (marshalEntry e).keys = ["id", "channel", "topic", "title", "timestamp", "duration",
        "description", "website", "videos"] ∧
      (marshalEntry e).prop "id" = some (.string e.id) ∧
      (marshalEntry e).prop "channel" = some (.string e.channel) ∧
      (marshalEntry e).prop "topic" = some (.string e.topic) ∧
      (marshalEntry e).prop "title" = some (.string e.title) ∧
      (marshalEntry e).prop "timestamp" = some (.int32 e.timestamp) ∧
      (marshalEntry e).prop "duration" = some (.int32 e.duration) ∧
      (marshalEntry e).prop "description" = some (.string e.description) ∧
      (marshalEntry e).prop "website" = some (.string e.website) ∧
      (marshalEntry e).prop "videos" = some (.array (e.videos.map marshalVideo))) ∧
    (∀ v : Video,
      (marshalVideo v).keys = ["url", "quality", "size"] ∧
      (marshalVideo v).prop "url" = some (.string v.url) ∧
      (marshalVideo v).prop "quality" = some (.int32 v.quality) ∧
      (marshalVideo v).prop "size" = some (.int32 v.size)) := by
  refine ⟨by simp [progressArgv, marshalBatch_eq], ?_, ?_⟩
  · intro e
    simp [marshalEntry, NanSet, JsValue.keys, JsValue.prop, marshalVideos_eq]
  · intro v
    simp [marshalVideo, NanSet, JsValue.keys, JsValue.prop]

/-- C8: on a source that queues at least one record, the last one handed out
with `isLast` true, and with batch size at least 1, the worker has left the
loop and finished after any schedule with `5 * N + 2` worker steps that found
the queue ready, however many empty polls and consumer steps the schedule also
holds; the local batches it merged, concatenated, are the emitted sequence;
they number the ceiling of `N / batchSize`; each but the last has exactly
`batchSize` records, and each, the last included, has between 1 and
`batchSize` records. -/
theorem C8_batching_loop_chunks (emitted : List Entry) (b : Nat) (sched : List Action)
    (hn : emitted ≠ []) (hb : 1 ≤ b) (hsteps : 5 * emitted.length + 2 ≤ readySteps sched) :
    (run sched (init b emitted)).pc = .finished ∧
    (merges (run sched (init b emitted)).trace).flatten = emitted ∧
    (merges (run sched (init b emitted)).trace).length = (emitted.length + b - 1) / b ∧
    (∀ L ∈ (merges (run sched (init b emitted)).trace).dropLast, L.length = b) ∧
    (∀ L ∈ merges (run sched (init b emitted)).trace, 1 ≤ L.length ∧ L.length ≤ b) := by
  have hl : InvLoop b (run sched (init b emitted)) :=
    invLoop_run sched (invLoop_init b emitted hb hn)
  have hc : InvCtl b (run sched (init b emitted)) := invCtl_run sched (invCtl_init b emitted)
  have hd : InvData emitted (run sched (init b emitted)) :=
    invData_run sched (invData_init b emitted)
  have hpc := enough_ready_steps_finish emitted b sched hn hb hsteps
  obtain ⟨h1, h2⟩ := invCtl_finished_drained hc hpc
  have hflat : (merges (run sched (init b emitted)).trace).flatten = emitted := by
    have h3 := hd.mergedAll
    rw [h1, h2] at h3
    simpa using h3
  refine ⟨hpc, hflat, ?_, hl.fullButLast, hl.mergedBounds⟩
  have := chunk_count b hb _ hl.fullButLast hl.mergedBounds
  rw [hflat] at this
  exact this

theorem C8_witness :
    List.replicate 250 rec1 ≠ [] ∧ 1 ≤ 100 ∧
    5 * (List.replicate 250 rec1).length + 2 ≤ readySteps (List.replicate 1252 w) ∧
    (run (List.replicate 1252 w) (init 100 (List.replicate 250 rec1))).pc = .finished ∧
    (merges (run (List.replicate 1252 w) (init 100 (List.replicate 250 rec1))).trace).map
      List.length = [100, 100, 50] := by
  have hne : List.replicate 250 rec1 ≠ [] := by
    intro h
    have h0 := congrArg List.length h
    rw [List.length_replicate] at h0
    exact absurd h0 (by decide)
  have hr : 5 * (List.replicate 250 rec1).length + 2 ≤ readySteps (List.replicate 1252 w) := by
    unfold readySteps w
    rw [List.count_replicate_self, List.length_replicate]
  obtain ⟨h1, h2, h3, h4, h5⟩ :=
    C8_batching_loop_chunks (List.replicate 250 rec1) 100 (List.replicate 1252 w)
      hne (by decide) hr
  refine ⟨hne, by decide, hr, h1, ?_⟩
  generalize merges (run (List.replicate 1252 w) (init 100 (List.replicate 250 rec1))).trace
    = M at h2 h3 h4 h5
  rw [List.length_replicate] at h3
  have hlen : M.length = 3 := h3
  obtain ⟨A, B, C, rfl⟩ := List.length_eq_three.mp hlen
  have hA : A.length = 100 := h4 A (by simp)
  have hB : B.length = 100 := h4 B (by simp)
  have hsum := congrArg List.length h2
  simp only [List.flatten_cons, List.flatten_nil, List.append_nil, List.length_append,
    List.length_replicate] at hsum
  simp only [List.map_cons, List.map_nil, hA, hB]
  have hC : C.length = 50 := by omega
  rw [hC]

end FilmlisteParser
